import Mathlib

set_option maxRecDepth 8192

/-!
Shallow embedding of three localization maintenance scripts of the
repository (`extract_keys.py`, `fetch_en_values.py`, `update_pl_ui.py`):
JSON values, dotted-path get/set, recursive key flattening, and the
three script drivers, translated into executable Lean definitions,
followed by theorems about them.
-/

/-- A JSON value as the scripts see it: a string leaf, a mapping
(`dict` / `OrderedDict`, modelled as an insertion-ordered association
list; a Python dict never has duplicate keys, which `wfKeys` below
expresses), or any other JSON value (number, boolean, null, array).
Every function in the scripts inspects values only through
`isinstance(·, dict)` and `isinstance(·, str)`, so all remaining value
kinds behave uniformly; `tag` merely distinguishes such values. -/
inductive JVal where
  | str (s : String)
  | other (tag : Nat)
  | obj (entries : List (String × JVal))

abbrev Entries := List (String × JVal)

/-- `k in d` / `d[k]` on a Python dict modelled as an ordered association
list: the binding of the first matching key, if any. -/
def lookupKey : Entries → String → Option JVal
  | [], _ => none
  | (k', v) :: rest, k => if k' = k then some v else lookupKey rest k

/-- `d[k] = v` on a Python dict: replace the existing binding in place
(keeping its position) if the key is present, else append it at the end. -/
def setKey : Entries → String → JVal → Entries
  | [], k, v => [(k, v)]
  | (k', w) :: rest, k, v =>
      if k' = k then (k, v) :: rest else (k', w) :: setKey rest k v

/-- Python's `s.split('.')` on the underlying character list: `""` maps to
`[""]`, separators at the ends and adjacent separators produce empty
pieces. -/
def splitDotChars : List Char → List (List Char)
  | [] => [[]]
  | c :: cs =>
      if c = '.' then [] :: splitDotChars cs
      else
        match splitDotChars cs with
        | [] => [[c]]
        | l :: ls => (c :: l) :: ls

/-- `key_string.split('.')`. -/
def splitDot (s : String) : List String :=
  (splitDotChars s.data).map String.mk

/-- Joining segments back with `'.'`; inverse to `splitDot` (used to name
the dotted keys the flattener emits). -/
def joinDotChars : List (List Char) → List Char
  | [] => []
  | [l] => l
  | l :: ls => l ++ '.' :: joinDotChars ls

/-- `'.'.join(segs)`. -/
def joinDot (segs : List String) : String :=
  String.mk (joinDotChars (segs.map String.data))

/-- The loop of `get_value_from_nested_dict` in `fetch_en_values.py`:
descend while the current value is a dict containing the next segment,
otherwise report failure; at the end of the segment list, the reached
value. -/
def getLoop : JVal → List String → Option JVal
  | cur, [] => some cur
  | .obj d, k :: ks =>
      match lookupKey d k with
      | some v => getLoop v ks
      | none => none
  | _, _ :: _ => none

/-- `get_value_from_nested_dict(data_dict, key_string)`: split the key on
`'.'`, walk the tree, and return the reached value only when it is a
string (`return current_val if isinstance(current_val, str) else None`);
`none` models Python's `None`. -/
def get_value_from_nested_dict (data_dict : Entries) (key_string : String) :
    Option String :=
  match getLoop (.obj data_dict) (splitDot key_string) with
  | some (.str s) => some s
  | _ => none

/-- The dict that `set_nested_value` descends into at an intermediate
segment: the existing sub-dict when the entry holds one, else the fresh
`OrderedDict()` that replaces an absent or non-dict entry. -/
def subDict : Option JVal → Entries
  | some (.obj m) => m
  | _ => []

/-- `set_nested_value` of `update_pl_ui.py` on the split segment list.
Python mutates the tree in place; here the updated tree is returned.
On the last segment the value is assigned directly; on intermediate
segments an absent or non-dict entry is replaced by a fresh empty dict
before descending. The `[]` segment case cannot arise from a split. -/
def setSegs : Entries → List String → JVal → Entries
  | d, [], _ => d
  | d, [k], v => setKey d k v
  | d, k :: k' :: ks, v =>
      setKey d k (.obj (setSegs (subDict (lookupKey d k)) (k' :: ks) v))

/-- `set_nested_value(data_dict, key_string, value)`. -/
def set_nested_value (data_dict : Entries) (key_string : String)
    (value : JVal) : Entries :=
  setSegs data_dict (splitDot key_string) value

/-- `extract_keys_recursive` of `extract_keys.py`, on the entry list of a
dict (the function's `for key, value in data.items()` loop): dict values
are recursed into with the extended dotted path, string values emit the
path, anything else is skipped. -/
def extractList (pref : String) : Entries → List String
  | [] => []
  | (k, v) :: rest =>
      let current_key := if pref = "" then k else pref ++ "." ++ k
      (match v with
       | .obj m => extractList current_key m
       | .str _ => [current_key]
       | .other _ => []) ++ extractList pref rest
termination_by l => sizeOf l
decreasing_by all_goals (simp_wf; try omega)

/-- `extract_keys_recursive(data, prefix)`: non-dict arguments produce no
keys. -/
def extract_keys_recursive (data : JVal) (pref : String := "") : List String :=
  match data with
  | .obj entries => extractList pref entries
  | _ => []

/-- Outcome of reading and JSON-parsing one localization file: the I/O
boundary of the scripts, passed in explicitly in place of the filesystem. -/
inductive LoadResult where
  | fileNotFound
  | emptyFile
  | malformedJSON
  | otherError
  | ok (t : Entries)

/-- Lexicographic `≤` on character lists by code point, Python's string
order. -/
def leChars : List Char → List Char → Bool
  | [], _ => true
  | _ :: _, [] => false
  | a :: as, b :: bs => if a = b then leChars as bs else decide (a.toNat < b.toNat)

/-- Python's `s <= t` on strings. -/
def leStr (s t : String) : Bool := leChars s.data t.data

/-- Removal of duplicates, modelling `set(keys)` before sorting (Python's
`set` keeps one occurrence of each element; which one is kept is
irrelevant once sorted). -/
def dedupKeys : List String → List String
  | [] => []
  | k :: rest => if rest.contains k then dedupKeys rest else k :: dedupKeys rest

/-- `get_keys_for_language` of `extract_keys.py`, with the file read
modelled by a `LoadResult`: every failure branch (file not found, empty
file, JSON decode error, any other exception) returns the empty set;
success flattens the tree. The Python `set(keys)` is modelled as the
deduplicated key list (`dedupKeys`). -/
def get_keys_for_language : LoadResult → List String
  | .ok t => dedupKeys (extract_keys_recursive (.obj t) "")
  | _ => []

/-- Insertion of a string into a sorted list. -/
def insertStr (s : String) : List String → List String
  | [] => [s]
  | t :: rest => if leStr s t then s :: t :: rest else t :: insertStr s rest

/-- `sorted(...)` on a list of strings. -/
def sortStrs : List String → List String
  | [] => []
  | s :: rest => insertStr s (sortStrs rest)

/-- One namespace of the Differ's `main`:
`sorted(list(en_keys - pl_keys))`. -/
def missingKeys (en pl : LoadResult) : List String :=
  sortStrs ((get_keys_for_language en).filter
    (fun k => !(get_keys_for_language pl).contains k))

/-- The Differ's `main` over its namespace list, the two per-file reads
modelled by the load functions: one labelled result per namespace. -/
def differMain (loadEn loadPl : String → LoadResult)
    (namespaces : List String) : List (String × List String) :=
  namespaces.map (fun ns =>
    ("missing_pl_" ++ ns ++ "_keys", missingKeys (loadEn ns) (loadPl ns)))

/-- `results[k] = v` on the Extractor's string-valued result dict. -/
def setKeyS : List (String × String) → String → String →
    List (String × String)
  | [], k, v => [(k, v)]
  | (k', w) :: rest, k, v =>
      if k' = k then (k, v) :: rest else (k', w) :: setKeyS rest k v

/-- Lookup on the Extractor's string-valued result dict. -/
def lookupKeyS : List (String × String) → String → Option String
  | [], _ => none
  | (k', v) :: rest, k => if k' = k then some v else lookupKeyS rest k

/-- The per-key result recorded by the Extractor's loop body: the value
when `get_value_from_nested_dict` succeeds, else its diagnostic string. -/
def extractValue (t : Entries) (key : String) : String :=
  match get_value_from_nested_dict t key with
  | some v => v
  | none => "ERROR: Value for key '" ++ key ++ "' not found or not a string."

/-- The Extractor's `main` of `fetch_en_values.py`, with the single file
read modelled by a `LoadResult`: on success, one loop filling the result
dict with an entry per requested key; every failure branch prints `{}`,
modelled as the empty result. -/
def extractorMain (r : LoadResult) (target_keys : List String) :
    List (String × String) :=
  match r with
  | .ok t => target_keys.foldl (fun res k => setKeyS res k (extractValue t k)) []
  | _ => []

/-- The Patcher's merge loop of `update_pl_ui.py`: apply every patch entry
via `set_nested_value`, in order. -/
def applyPatches (existing : Entries) (patches : List (String × String)) :
    Entries :=
  patches.foldl (fun acc p => set_nested_value acc p.1 (.str p.2)) existing

/-- Spec-side walk, following the spec's words for the `get` contract
(§4.1): walk one segment at a time, descending only when the current node
is a mapping containing the segment; reaching the end of the path yields
the node found there. -/
def specWalk : JVal → List String → Option JVal
  | v, [] => some v
  | .obj d, k :: ks =>
      match lookupKey d k with
      | some v => specWalk v ks
      | none => none
  | _, _ :: _ => none

/-- Well-formedness of the dict model: keys at every level are pairwise
distinct (an association list with duplicate keys corresponds to no
Python dict). -/
def wfKeys : Entries → Bool
  | [] => true
  | (k, v) :: rest =>
      !(decide (k ∈ rest.map Prod.fst)) &&
        (match v with | .obj m => wfKeys m | _ => true) && wfKeys rest
termination_by l => sizeOf l
decreasing_by all_goals (simp_wf; try omega)

/-- Every key in the tree is nonempty and contains no `'.'`. -/
def keysOk : Entries → Bool
  | [] => true
  | (k, v) :: rest =>
      (!(k = "") && k.data.all (fun c => !(c = '.'))) &&
        (match v with | .obj m => keysOk m | _ => true) && keysOk rest
termination_by l => sizeOf l
decreasing_by all_goals (simp_wf; try omega)

/-- Segment paths of all string leaves of a tree: the specification-side
view of the flattener, with paths kept as segment lists. -/
def strPaths : Entries → List (List String)
  | [] => []
  | (k, v) :: rest =>
      (match v with
       | .obj m => (strPaths m).map (fun p => k :: p)
       | .str _ => [[k]]
       | .other _ => []) ++ strPaths rest
termination_by l => sizeOf l
decreasing_by all_goals (simp_wf; try omega)

/-- `p` is an initial segment of `q`; two dotted keys are independent when
neither side's segment list is an initial segment of the other's. -/
def isHeadOf : List String → List String → Bool
  | [], _ => true
  | _ :: _, [] => false
  | a :: p, b :: q => a = b && isHeadOf p q

/-- Structural induction over a tree given as an entry list, descending
both into sub-dicts and along the list. -/
def entriesRec {motive : Entries → Prop}
    (h0 : motive [])
    (hstr : ∀ k s rest, motive rest → motive ((k, .str s) :: rest))
    (hoth : ∀ k n rest, motive rest → motive ((k, .other n) :: rest))
    (hobj : ∀ k m rest, motive m → motive rest →
      motive ((k, .obj m) :: rest)) :
    ∀ l, motive l
  | [] => h0
  | (k, .str s) :: rest => hstr k s rest (entriesRec h0 hstr hoth hobj rest)
  | (k, .other n) :: rest => hoth k n rest (entriesRec h0 hstr hoth hobj rest)
  | (k, .obj m) :: rest =>
      hobj k m rest (entriesRec h0 hstr hoth hobj m)
        (entriesRec h0 hstr hoth hobj rest)
termination_by l => sizeOf l
decreasing_by all_goals (simp_wf; try omega)

/-! ### Association-list (Python dict) lemmas -/

theorem lookupKey_setKey_self (d : Entries) (k : String) (v : JVal) :
    lookupKey (setKey d k v) k = some v := by
  induction d with
  | nil => simp [setKey, lookupKey]
  | cons e rest ih =>
    obtain ⟨k', w⟩ := e
    by_cases h : k' = k <;> simp [setKey, lookupKey, h, ih]

theorem lookupKey_setKey_ne (d : Entries) (k k' : String) (v : JVal)
    (h : k' ≠ k) : lookupKey (setKey d k v) k' = lookupKey d k' := by
  induction d with
  | nil => simp [setKey, lookupKey, Ne.symm h]
  | cons e rest ih =>
    obtain ⟨k₀, w⟩ := e
    by_cases h0 : k₀ = k
    · subst h0
      simp [setKey, lookupKey, Ne.symm h]
    · by_cases h1 : k₀ = k'
      · subst h1
        simp [setKey, lookupKey, h0, Ne.symm h, ih]
      · simp [setKey, lookupKey, h0, h1, ih]

/-! ### Splitting and joining dotted keys -/

theorem splitDotChars_ne_nil (cs : List Char) : splitDotChars cs ≠ [] := by
  induction cs with
  | nil => simp [splitDotChars]
  | cons c cs ih =>
    simp only [splitDotChars]
    split
    · simp
    · cases h : splitDotChars cs with
      | nil => exact absurd h ih
      | cons l ls => simp [h]

theorem splitDot_ne_nil (s : String) : splitDot s ≠ [] := by
  unfold splitDot
  intro h
  exact splitDotChars_ne_nil s.data (List.map_eq_nil_iff.mp h)

theorem joinDotChars_splitDotChars (cs : List Char) :
    joinDotChars (splitDotChars cs) = cs := by
  induction cs with
  | nil => rfl
  | cons c cs ih =>
    simp only [splitDotChars]
    split
    · rename_i hc
      cases h : splitDotChars cs with
      | nil => exact absurd h (splitDotChars_ne_nil cs)
      | cons l ls =>
        rw [h] at ih
        simp [joinDotChars, hc, ih]
    · cases h : splitDotChars cs with
      | nil => exact absurd h (splitDotChars_ne_nil cs)
      | cons l ls =>
        rw [h] at ih
        cases ls with
        | nil => simpa [joinDotChars] using ih
        | cons l2 ls2 => simpa [joinDotChars] using ih

theorem splitDotChars_dotFree (cs : List Char) (h : '.' ∉ cs) :
    splitDotChars cs = [cs] := by
  induction cs with
  | nil => rfl
  | cons c cs ih =>
    have hc : ¬ c = '.' := fun hh => h (hh ▸ List.mem_cons_self c cs)
    have hcs : '.' ∉ cs := fun hh => h (List.mem_cons_of_mem c hh)
    simp [splitDotChars, hc, ih hcs]

theorem splitDotChars_append (l cs : List Char) (h : '.' ∉ l) :
    splitDotChars (l ++ '.' :: cs) = l :: splitDotChars cs := by
  induction l with
  | nil => simp [splitDotChars]
  | cons c l ih =>
    have hc : ¬ c = '.' := fun hh => h (hh ▸ List.mem_cons_self c l)
    have hl : '.' ∉ l := fun hh => h (List.mem_cons_of_mem c hh)
    simp [splitDotChars, hc, ih hl]

theorem splitDotChars_joinDotChars (ls : List (List Char)) (h0 : ls ≠ [])
    (h : ∀ l ∈ ls, '.' ∉ l) : splitDotChars (joinDotChars ls) = ls := by
  induction ls with
  | nil => exact absurd rfl h0
  | cons l ls ih =>
    cases ls with
    | nil =>
      simpa [joinDotChars] using splitDotChars_dotFree l (h l (by simp))
    | cons l2 ls2 =>
      have h1 : '.' ∉ l := h l (by simp)
      have h2 : ∀ x ∈ l2 :: ls2, '.' ∉ x := fun x hx => h x (by simp [hx])
      simp only [joinDotChars]
      rw [splitDotChars_append l _ h1, ih (by simp) h2]

theorem strData_mk (cs : List Char) : (String.mk cs).data = cs := rfl

theorem strEq_of_data : ∀ {a b : String}, a.data = b.data → a = b
  | ⟨_⟩, ⟨_⟩, h => congrArg String.mk h

theorem strData_append (a b : String) : (a ++ b).data = a.data ++ b.data := rfl

theorem joinDot_splitDot (s : String) : joinDot (splitDot s) = s := by
  apply strEq_of_data
  show (joinDotChars ((((splitDotChars s.data).map String.mk)).map String.data)) = s.data
  rw [List.map_map]
  have : (String.data ∘ String.mk) = id := by
    funext l; rfl
  rw [this, List.map_id, joinDotChars_splitDotChars]

theorem splitDot_joinDot (segs : List String) (h0 : segs ≠ [])
    (h : ∀ seg ∈ segs, '.' ∉ seg.data) : splitDot (joinDot segs) = segs := by
  unfold splitDot joinDot
  rw [strData_mk, splitDotChars_joinDotChars (segs.map String.data)
    (by simpa using h0) (by intro l hl; obtain ⟨seg, hseg, rfl⟩ := List.mem_map.mp hl; exact h seg hseg)]
  rw [List.map_map]
  have : (String.mk ∘ String.data) = id := by
    funext t; cases t; rfl
  rw [this, List.map_id]

theorem joinDot_cons (k : String) (p : List String) (hp : p ≠ []) :
    joinDot (k :: p) = k ++ "." ++ joinDot p := by
  apply strEq_of_data
  cases p with
  | nil => exact absurd rfl hp
  | cons q ps =>
    show joinDotChars (k.data :: q.data :: ps.map String.data)
      = (k ++ "." ++ joinDot (q :: ps)).data
    rw [strData_append, strData_append]
    have hjd : (joinDot (q :: ps)).data = joinDotChars (q.data :: ps.map String.data) := rfl
    rw [hjd]
    simp [joinDotChars]

/-! ### Initial-segment (path independence) lemmas -/

theorem isHeadOf_self (p : List String) : isHeadOf p p = true := by
  induction p with
  | nil => rfl
  | cons a p ih => simp [isHeadOf, ih]

theorem isHeadOf_antisymm : ∀ p q : List String,
    isHeadOf p q = true → isHeadOf q p = true → p = q
  | [], [], _, _ => rfl
  | [], _ :: _, _, h => by simp [isHeadOf] at h
  | _ :: _, [], h, _ => by simp [isHeadOf] at h
  | a :: p, b :: q, h, h' => by
    simp only [isHeadOf, Bool.and_eq_true, decide_eq_true_eq] at h h'
    exact by rw [h.1, isHeadOf_antisymm p q h.2 h'.2]

theorem isHeadOf_comparable : ∀ p q r : List String,
    isHeadOf p r = true → isHeadOf q r = true →
    isHeadOf p q = true ∨ isHeadOf q p = true
  | [], _, _, _, _ => Or.inl rfl
  | _ :: _, [], _, _, _ => Or.inr rfl
  | _ :: _, _ :: _, [], h, _ => by simp [isHeadOf] at h
  | a :: p, b :: q, c :: r, h, h' => by
    simp only [isHeadOf, Bool.and_eq_true, decide_eq_true_eq] at h h'
    rcases isHeadOf_comparable p q r h.2 h'.2 with hh | hh
    · exact Or.inl (by simp [isHeadOf, h.1, h'.1, hh])
    · exact Or.inr (by simp [isHeadOf, h.1, h'.1, hh])

/-! ### The walk of `get` against `set_nested_value` -/

theorem getLoop_eq_specWalk (p : List String) (v : JVal) :
    getLoop v p = specWalk v p := by
  induction p generalizing v with
  | nil => cases v <;> rfl
  | cons k ks ih =>
    cases v with
    | str s => rfl
    | other n => rfl
    | obj d =>
      simp only [getLoop, specWalk]
      cases lookupKey d k with
      | none => rfl
      | some w => exact ih w

/-- The value assigned at the full path is found there again, whatever it
is. -/
theorem getLoop_setSegs_self : ∀ (p : List String) (d : Entries) (v : JVal),
    p ≠ [] → getLoop (.obj (setSegs d p v)) p = some v
  | [], _, _, h => absurd rfl h
  | [k], d, v, _ => by
    simp [setSegs, getLoop, lookupKey_setKey_self]
  | k :: k' :: ps, d, v, _ => by
    simp only [setSegs, getLoop, lookupKey_setKey_self]
    exact getLoop_setSegs_self (k' :: ps) _ v (by simp)

/-- At any proper initial segment of the path just set, the walk finds a
dict. -/
theorem getLoop_setSegs_head : ∀ (q p : List String) (d : Entries) (v : JVal),
    q ≠ [] → isHeadOf q p = true → q ≠ p →
    ∃ m, getLoop (.obj (setSegs d p v)) q = some (.obj m)
  | [], _, _, _, h, _, _ => absurd rfl h
  | [k], p, d, v, _, hh, hne => by
    match p, hh, hne with
    | [], hh, _ => simp [isHeadOf] at hh
    | [k₀], hh, hne =>
      simp only [isHeadOf, Bool.and_eq_true, decide_eq_true_eq] at hh
      exact absurd (by rw [hh.1]) hne
    | k₀ :: k' :: ps, hh, _ =>
      simp only [isHeadOf, Bool.and_eq_true, decide_eq_true_eq] at hh
      obtain ⟨rfl, -⟩ := hh
      refine ⟨setSegs (subDict (lookupKey d k)) (k' :: ps) v, ?_⟩
      simp [setSegs, getLoop, lookupKey_setKey_self]
  | k :: q' :: qs, p, d, v, _, hh, hne => by
    match p, hh, hne with
    | [], hh, _ => simp [isHeadOf] at hh
    | k₀ :: p', hh, hne =>
      simp only [isHeadOf, Bool.and_eq_true, decide_eq_true_eq] at hh
      obtain ⟨rfl, hh2⟩ := hh
      match p', hh2, hne with
      | [], hh2, _ => simp [isHeadOf] at hh2
      | p₁ :: ps, hh2, hne =>
        have hne' : q' :: qs ≠ p₁ :: ps := fun hx => hne (by rw [hx])
        obtain ⟨m, hm⟩ := getLoop_setSegs_head (q' :: qs) (p₁ :: ps)
          (subDict (lookupKey d k)) v (by simp) hh2 hne'
        refine ⟨m, ?_⟩
        simp only [setSegs, getLoop, lookupKey_setKey_self]
        simpa [getLoop] using hm

/-- Beyond the end of a path just set to a string, the walk fails. -/
theorem getLoop_setSegs_ext : ∀ (p q : List String) (d : Entries) (s : String),
    p ≠ [] → isHeadOf p q = true → p ≠ q →
    getLoop (.obj (setSegs d p (.str s))) q = none
  | [], _, _, _, h, _, _ => absurd rfl h
  | [k], q, d, s, _, hh, hne => by
    match q, hh, hne with
    | [], hh, _ => simp [isHeadOf] at hh
    | k₀ :: t, hh, hne =>
      simp only [isHeadOf, Bool.and_eq_true, decide_eq_true_eq] at hh
      obtain ⟨rfl, -⟩ := hh
      match t, hne with
      | [], hne => exact absurd rfl hne
      | t₁ :: ts, _ =>
        simp [setSegs, getLoop, lookupKey_setKey_self]
  | k :: p₁ :: ps, q, d, s, _, hh, hne => by
    match q, hh, hne with
    | [], hh, _ => simp [isHeadOf] at hh
    | k₀ :: t, hh, hne =>
      simp only [isHeadOf, Bool.and_eq_true, decide_eq_true_eq] at hh
      obtain ⟨rfl, hh2⟩ := hh
      have ht : t ≠ [] := by
        intro hx; subst hx; simp [isHeadOf] at hh2
      have hne' : p₁ :: ps ≠ t := fun hx => hne (by rw [hx])
      have hrec := getLoop_setSegs_ext (p₁ :: ps) t (subDict (lookupKey d k)) s
        (by simp) hh2 hne'
      simp only [setSegs, getLoop, lookupKey_setKey_self]
      simpa [getLoop] using hrec

/-- Frame: setting along a path leaves the walk at any independent path
unchanged. -/
theorem getLoop_setSegs_indep : ∀ (p q : List String) (d : Entries) (v : JVal),
    isHeadOf p q = false → isHeadOf q p = false →
    getLoop (.obj (setSegs d p v)) q = getLoop (.obj d) q
  | [], _, _, _, h, _ => by simp [isHeadOf] at h
  | _ :: _, [], _, _, _, h => by simp [isHeadOf] at h
  | [k], q₁ :: t, d, v, hpq, hqp => by
    have hne : q₁ ≠ k := by
      intro hx; subst hx
      simp [isHeadOf] at hpq
    simp [setSegs, getLoop, lookupKey_setKey_ne d k q₁ v hne]
  | k :: p₁ :: ps, q₁ :: t, d, v, hpq, hqp => by
    by_cases hk : q₁ = k
    · subst hk
      simp only [isHeadOf, decide_True, Bool.true_and, Bool.and_eq_true] at hpq hqp
      have ht : t ≠ [] := by
        intro hx; subst hx; simp [isHeadOf] at hqp
      simp only [setSegs, getLoop, lookupKey_setKey_self]
      rw [getLoop_setSegs_indep (p₁ :: ps) t (subDict (lookupKey d q₁)) v hpq hqp]
      cases hl : lookupKey d q₁ with
      | none =>
        obtain ⟨t₁, ts, rfl⟩ : ∃ a b, t = a :: b :=
          match t, ht with
          | a :: b, _ => ⟨a, b, rfl⟩
        simp [subDict, hl, getLoop, lookupKey]
      | some w =>
        cases w with
        | obj m => simp [subDict, hl, getLoop]
        | str s =>
          obtain ⟨t₁, ts, rfl⟩ : ∃ a b, t = a :: b :=
            match t, ht with
            | a :: b, _ => ⟨a, b, rfl⟩
          simp [subDict, hl, getLoop, lookupKey]
        | other n =>
          obtain ⟨t₁, ts, rfl⟩ : ∃ a b, t = a :: b :=
            match t, ht with
            | a :: b, _ => ⟨a, b, rfl⟩
          simp [subDict, hl, getLoop, lookupKey]
    · simp [setSegs, getLoop, lookupKey_setKey_ne d k q₁ _ hk]

/-- Segment-level view of `get_value_from_nested_dict` (the function after
the key has been split). -/
def getValSegs (d : Entries) (p : List String) : Option String :=
  match getLoop (.obj d) p with
  | some (.str s) => some s
  | _ => none

theorem get_eq_getValSegs (d : Entries) (k : String) :
    get_value_from_nested_dict d k = getValSegs d (splitDot k) := rfl

theorem isHeadOf_trans : ∀ p q r : List String,
    isHeadOf p q = true → isHeadOf q r = true → isHeadOf p r = true
  | [], _, _, _, _ => rfl
  | _ :: _, [], _, h, _ => by simp [isHeadOf] at h
  | _ :: _, _ :: _, [], _, h => by simp [isHeadOf] at h
  | a :: p, b :: q, c :: r, h, h' => by
    simp only [isHeadOf, Bool.and_eq_true, decide_eq_true_eq] at h h' ⊢
    exact ⟨h.1.trans h'.1, isHeadOf_trans p q r h.2 h'.2⟩

/-- Full characterization of a `get` after a `set` of a string value:
the set value at the set path, a failure at any path properly
initial to or properly extending it, and the old value elsewhere. -/
theorem getValSegs_setSegs_char (d : Entries) (p q : List String) (s : String)
    (hp : p ≠ []) (hq : q ≠ []) :
    getValSegs (setSegs d p (.str s)) q =
      if q = p then some s
      else if isHeadOf p q || isHeadOf q p then none
      else getValSegs d q := by
  by_cases hqp : q = p
  · subst hqp
    simp [getValSegs, getLoop_setSegs_self q d _ hq]
  · rw [if_neg hqp]
    by_cases h1 : isHeadOf p q = true
    · rw [if_pos (by simp [h1])]
      simp [getValSegs, getLoop_setSegs_ext p q d s hp h1 (fun hx => hqp hx.symm)]
    · by_cases h2 : isHeadOf q p = true
      · obtain ⟨m, hm⟩ := getLoop_setSegs_head q p d (.str s) hq h2 hqp
        rw [if_pos (by simp [h2])]
        simp [getValSegs, hm]
      · have h1' : isHeadOf p q = false := by revert h1; cases isHeadOf p q <;> simp
        have h2' : isHeadOf q p = false := by revert h2; cases isHeadOf q p <;> simp
        rw [if_neg (by simp [h1', h2'])]
        simp [getValSegs, getLoop_setSegs_indep p q d _ h1' h2']

/-- C1: round-trip of addressing — for every localization tree `T`, dotted
key `k` and string `v`, `get_value_from_nested_dict` applied to
`set_nested_value T k (.str v)` at the same key returns `v`. -/
theorem get_after_set_roundtrip (T : Entries) (k v : String) :
    get_value_from_nested_dict (set_nested_value T k (.str v)) k = some v := by
  rw [get_eq_getValSegs]
  unfold set_nested_value getValSegs
  rw [getLoop_setSegs_self (splitDot k) T (.str v) (splitDot_ne_nil k)]

/-- C3: contract of `get` — splitting the key and walking the segments as
the spec describes (`specWalk`), `get_value_from_nested_dict` returns
exactly the walked-to value when that is a string leaf, and the
not-found signal (`none`) when the walk fails or ends at a mapping or
other non-string value; by construction it is total (no exception) and
never yields a sub-tree. -/
theorem get_contract_walk (T : Entries) (k : String) :
    get_value_from_nested_dict T k =
      match specWalk (.obj T) (splitDot k) with
      | some (.str s) => some s
      | _ => none := by
  unfold get_value_from_nested_dict
  rw [getLoop_eq_specWalk]

/-- C10: the empty dotted key is handled deterministically — `""` splits
into the single empty segment, so `set` assigns the value to the key `""`
at the root and `get` returns the root entry at `""` exactly when it is a
string. -/
theorem empty_key_behavior (T : Entries) (v : JVal) :
    splitDot "" = [""] ∧
    set_nested_value T "" v = setKey T "" v ∧
    get_value_from_nested_dict T "" =
      (match lookupKey T "" with
       | some (.str s) => some s
       | _ => none) := by
  refine ⟨rfl, rfl, ?_⟩
  show getValSegs T [""] = _
  unfold getValSegs
  simp only [getLoop]
  cases lookupKey T "" with
  | none => rfl
  | some w => cases w <;> rfl

/-- C4: overwrite policy of `set` — on a single (final) segment the value
is assigned directly, overwriting any prior binding; on an intermediate
segment whose entry is absent or not a mapping, the entry is replaced by
the tree built from a fresh empty mapping (the pre-existing non-mapping
value is silently discarded); an intermediate mapping entry is descended
into and updated in place. -/
theorem set_overwrite_policy (d : Entries) (k : String) (ks : List String)
    (v : JVal) :
    (setSegs d [k] v = setKey d k v) ∧
    (lookupKey (setKey d k v) k = some v) ∧
    (ks ≠ [] → (∀ m, lookupKey d k ≠ some (.obj m)) →
      setSegs d (k :: ks) v = setKey d k (.obj (setSegs [] ks v))) ∧
    (ks ≠ [] → ∀ m, lookupKey d k = some (.obj m) →
      setSegs d (k :: ks) v = setKey d k (.obj (setSegs m ks v))) := by
  refine ⟨rfl, lookupKey_setKey_self d k v, ?_, ?_⟩
  · intro hks hno
    match ks, hks with
    | k' :: ks', _ =>
      have : subDict (lookupKey d k) = [] := by
        cases hl : lookupKey d k with
        | none => rfl
        | some w =>
          cases w with
          | obj m => exact absurd hl (hno m)
          | str s => rfl
          | other n => rfl
      simp [setSegs, this]
  · intro hks m hm
    match ks, hks with
    | k' :: ks', _ => simp [setSegs, hm, subDict]

theorem set_overwrite_policy_witness :
    setSegs [("a", JVal.str "old")] ["a", "b"] (.str "new") =
      setKey [("a", JVal.str "old")] "a" (.obj (setSegs [] ["b"] (.str "new"))) :=
  (set_overwrite_policy [("a", JVal.str "old")] "a" ["b"] (.str "new")).2.2.1
    (by simp) (fun m hm => by simp [lookupKey] at hm)

/-- C8: frame property of patching — a `set` leaves the observable value
of every independent dotted key unchanged, leaves every top-level entry
away from the path's first segment untouched, and on the spec's concrete
example rewrites only the addressed leaf, keeping the sibling `d`. -/
theorem patch_frame_preserves_siblings (T : Entries) (k k' k₀ : String)
    (v : JVal)
    (h1 : isHeadOf (splitDot k) (splitDot k') = false)
    (h2 : isHeadOf (splitDot k') (splitDot k) = false)
    (h3 : isHeadOf [k₀] (splitDot k) = false) :
    get_value_from_nested_dict (set_nested_value T k v) k' =
      get_value_from_nested_dict T k' ∧
    lookupKey (set_nested_value T k v) k₀ = lookupKey T k₀ ∧
    set_nested_value [("a", .obj [("b", .str "old"), ("d", .str "keep")])]
        "a.b" (.str "new")
      = [("a", .obj [("b", .str "new"), ("d", .str "keep")])] := by
  refine ⟨?_, ?_, rfl⟩
  · rw [get_eq_getValSegs, get_eq_getValSegs]
    unfold set_nested_value getValSegs
    rw [getLoop_setSegs_indep (splitDot k) (splitDot k') T v h1 h2]
  · unfold set_nested_value
    cases hs : splitDot k with
    | nil => exact absurd hs (splitDot_ne_nil k)
    | cons s₁ t =>
      rw [hs] at h3
      simp only [isHeadOf, Bool.and_eq_true, Bool.and_eq_false_iff,
        decide_eq_false_iff_not] at h3
      have hne : k₀ ≠ s₁ := by
        rcases h3 with h | h
        · exact h
        · simp [isHeadOf] at h
      cases t with
      | nil => exact lookupKey_setKey_ne T s₁ k₀ v hne
      | cons s₂ ts => exact lookupKey_setKey_ne T s₁ k₀ _ hne

theorem patch_frame_preserves_siblings_witness :
    get_value_from_nested_dict
        (set_nested_value [("a", .obj [("b", .str "old"), ("d", .str "keep")])]
          "a.b" (.str "new")) "a.d"
      = get_value_from_nested_dict
          [("a", .obj [("b", .str "old"), ("d", .str "keep")])] "a.d" ∧
    lookupKey
        (set_nested_value [("a", .obj [("b", .str "old"), ("d", .str "keep")])]
          "a.b" (.str "new")) "z"
      = lookupKey [("a", .obj [("b", .str "old"), ("d", .str "keep")])] "z" := by
  have h := patch_frame_preserves_siblings
    [("a", .obj [("b", .str "old"), ("d", .str "keep")])] "a.b" "a.d" "z"
    (.str "new") (by decide) (by decide) (by decide)
  exact ⟨h.1, h.2.1⟩

/-- C9 counterexample: applying two independent patch entries in the two
orders yields differently-ordered trees — `{"a": "x", "b": "y"}` versus
`{"b": "y", "a": "x"}` — so the resulting (ordered) trees are not equal. -/
theorem set_order_changes_tree :
    set_nested_value (set_nested_value [] "a" (.str "x")) "b" (.str "y") ≠
      set_nested_value (set_nested_value [] "b" (.str "y")) "a" (.str "x") := by
  intro h
  have h2 := congrArg (List.map Prod.fst) h
  have h3 : (["a", "b"] : List String) = ["b", "a"] := h2
  exact absurd h3 (by decide)

/-- Observational commutation of two independent sets, at segment level. -/
theorem getValSegs_set_set_comm (d : Entries) (p1 p2 q : List String)
    (v1 v2 : String) (hp1 : p1 ≠ []) (hp2 : p2 ≠ []) (hq : q ≠ [])
    (h1 : isHeadOf p1 p2 = false) (h2 : isHeadOf p2 p1 = false) :
    getValSegs (setSegs (setSegs d p1 (.str v1)) p2 (.str v2)) q =
      getValSegs (setSegs (setSegs d p2 (.str v2)) p1 (.str v1)) q := by
  have hne12 : p1 ≠ p2 := by
    intro h; subst h; rw [isHeadOf_self] at h1; cases h1
  rw [getValSegs_setSegs_char (setSegs d p1 (.str v1)) p2 q v2 hp2 hq,
      getValSegs_setSegs_char d p1 q v1 hp1 hq,
      getValSegs_setSegs_char (setSegs d p2 (.str v2)) p1 q v1 hp1 hq,
      getValSegs_setSegs_char d p2 q v2 hp2 hq]
  by_cases e2 : q = p2
  · subst e2
    simp [Ne.symm hne12, h1, h2]
  · by_cases e1 : q = p1
    · subst e1
      simp [hne12, e2, h1, h2]
    · by_cases r2 : (isHeadOf p2 q || isHeadOf q p2) = true
      · by_cases r1 : (isHeadOf p1 q || isHeadOf q p1) = true
        · simp [e1, e2, r1, r2]
        · simp [e1, e2, r1, r2]
      · by_cases r1 : (isHeadOf p1 q || isHeadOf q p1) = true
        · simp [e1, e2, r1, r2]
        · simp [e1, e2, r1, r2]

/-- C9 amended: for independent dotted keys (neither's segment list an
initial segment of the other's), applying the two `set_nested_value`
patches in either order yields observationally equal trees: `get` agrees
on every dotted key. The trees themselves may differ in key order (see
the counterexample), which is exactly the reproducible-output caveat. -/
theorem set_order_observational_comm (T : Entries) (k1 k2 v1 v2 q : String)
    (h1 : isHeadOf (splitDot k1) (splitDot k2) = false)
    (h2 : isHeadOf (splitDot k2) (splitDot k1) = false) :
    get_value_from_nested_dict
        (set_nested_value (set_nested_value T k1 (.str v1)) k2 (.str v2)) q =
      get_value_from_nested_dict
        (set_nested_value (set_nested_value T k2 (.str v2)) k1 (.str v1)) q := by
  rw [get_eq_getValSegs, get_eq_getValSegs]
  unfold set_nested_value
  exact getValSegs_set_set_comm T (splitDot k1) (splitDot k2) (splitDot q)
    v1 v2 (splitDot_ne_nil k1) (splitDot_ne_nil k2) (splitDot_ne_nil q) h1 h2

theorem set_order_observational_comm_witness :
    get_value_from_nested_dict
        (set_nested_value (set_nested_value [] "a" (.str "x")) "b" (.str "y")) "a" =
      get_value_from_nested_dict
        (set_nested_value (set_nested_value [] "b" (.str "y")) "a" (.str "x")) "a" :=
  set_order_observational_comm [] "a" "b" "x" "y" "a" (by decide) (by decide)

/-! ### The flattener versus leaf paths -/

theorem strAppend_assoc (a b c : String) : (a ++ b) ++ c = a ++ (b ++ c) := by
  apply strEq_of_data
  simp [strData_append, List.append_assoc]

theorem dotAppend_ne_empty (pref k : String) : pref ++ "." ++ k ≠ "" := by
  intro h
  have hd := congrArg String.data h
  rw [strData_append, strData_append] at hd
  simp at hd

/-- The dotted key the flattener emits for a leaf at segment path `p`
below the accumulated prefix `pref`. -/
def dotJoin (pref : String) (p : List String) : String :=
  if pref = "" then joinDot p else pref ++ "." ++ joinDot p

theorem strPaths_ne_nil (e : Entries) : ∀ p ∈ strPaths e, p ≠ [] := by
  induction e using entriesRec with
  | h0 => intro p hp; simp [strPaths] at hp
  | hstr k s rest ih =>
    intro p hp
    simp only [strPaths, List.mem_append] at hp
    rcases hp with hp | hp
    · simp at hp; simp [hp]
    · exact ih p hp
  | hoth k n rest ih =>
    intro p hp
    simp only [strPaths, List.mem_append] at hp
    rcases hp with hp | hp
    · simp at hp
    · exact ih p hp
  | hobj k m rest ihm ih =>
    intro p hp
    simp only [strPaths, List.mem_append, List.mem_map] at hp
    rcases hp with ⟨q, hq, rfl⟩ | hp
    · simp
    · exact ih p hp

theorem strPaths_head (e : Entries) :
    ∀ p ∈ strPaths e, ∃ k t, p = k :: t ∧ k ∈ e.map Prod.fst := by
  induction e using entriesRec with
  | h0 => intro p hp; simp [strPaths] at hp
  | hstr k s rest ih =>
    intro p hp
    simp only [strPaths, List.mem_append] at hp
    rcases hp with hp | hp
    · simp at hp; exact ⟨k, [], by simp [hp]⟩
    · obtain ⟨k', t, rfl, hk'⟩ := ih p hp
      exact ⟨k', t, rfl, by simp [hk']⟩
  | hoth k n rest ih =>
    intro p hp
    simp only [strPaths, List.mem_append] at hp
    rcases hp with hp | hp
    · simp at hp
    · obtain ⟨k', t, rfl, hk'⟩ := ih p hp
      exact ⟨k', t, rfl, by simp [hk']⟩
  | hobj k m rest ihm ih =>
    intro p hp
    simp only [strPaths, List.mem_append, List.mem_map] at hp
    rcases hp with ⟨q, hq, rfl⟩ | hp
    · exact ⟨k, q, rfl, by simp⟩
    · obtain ⟨k', t, rfl, hk'⟩ := ih p hp
      exact ⟨k', t, rfl, by simp [hk']⟩

theorem joinDot_single (k : String) : joinDot [k] = k := by
  show String.mk k.data = k
  cases k; rfl

theorem dotJoin_cons (pref k : String) (p : List String) (hp : p ≠ [])
    (hk : k ≠ "") :
    dotJoin pref (k :: p) =
      dotJoin (if pref = "" then k else pref ++ "." ++ k) p := by
  by_cases h : pref = ""
  · subst h
    simp [dotJoin, joinDot_cons k p hp, hk]
  · have hne : pref ++ "." ++ k ≠ "" := dotAppend_ne_empty pref k
    simp only [dotJoin]
    rw [if_neg h, if_neg h, if_neg hne, joinDot_cons k p hp]
    simp [strAppend_assoc]

/-- The flattener emits exactly the joined segment paths of the string
leaves, provided all keys are nonempty and dot-free. -/
theorem extractList_eq_strPaths (e : Entries) :
    keysOk e = true → ∀ pref,
      extractList pref e = (strPaths e).map (dotJoin pref) := by
  induction e using entriesRec with
  | h0 => intro _ pref; simp [extractList, strPaths]
  | hstr k s rest ih =>
    intro hok pref
    simp only [keysOk, Bool.and_eq_true] at hok
    have hrest : keysOk rest = true := hok.2
    simp only [extractList, strPaths, List.map_append, List.map_cons,
      List.map_nil, ih hrest pref]
    simp [dotJoin, joinDot_single]
  | hoth k n rest ih =>
    intro hok pref
    simp only [keysOk, Bool.and_eq_true] at hok
    simp only [extractList, strPaths, List.map_append, ih hok.2 pref]
    simp
  | hobj k m rest ihm ih =>
    intro hok pref
    simp only [keysOk, Bool.and_eq_true] at hok
    have hm : keysOk m = true := hok.1.2
    have hrest : keysOk rest = true := hok.2
    have hk : k ≠ "" := by
      have h1 := hok.1.1.1
      simpa using h1
    simp only [extractList, strPaths, List.map_append, List.map_map,
      ihm hm, ih hrest pref]
    congr 1
    apply List.map_congr_left
    intro p hp
    exact (dotJoin_cons pref k p (strPaths_ne_nil m p hp) hk).symm

/-- In a well-formed tree, every string-leaf segment path walks to its
leaf. -/
theorem walk_strPaths (e : Entries) :
    wfKeys e = true → ∀ p ∈ strPaths e,
      ∃ s, getLoop (.obj e) p = some (.str s) := by
  induction e using entriesRec with
  | h0 => intro _ p hp; simp [strPaths] at hp
  | hstr k s rest ih =>
    intro hwf p hp
    simp only [wfKeys, Bool.and_eq_true] at hwf
    have hnotin : k ∉ rest.map Prod.fst := by
      have h1 := hwf.1.1
      simpa using h1
    simp only [strPaths, List.mem_append] at hp
    rcases hp with hp | hp
    · simp at hp
      exact ⟨s, by simp [hp, getLoop, lookupKey]⟩
    · obtain ⟨k', t, rfl, hk'⟩ := strPaths_head rest _ hp
      have hne : ¬ k = k' := fun hh => hnotin (hh ▸ hk')
      obtain ⟨s', hs'⟩ := ih hwf.2 _ hp
      refine ⟨s', ?_⟩
      simp only [getLoop, lookupKey, if_neg hne]
      simpa [getLoop] using hs'
  | hoth k n rest ih =>
    intro hwf p hp
    simp only [wfKeys, Bool.and_eq_true] at hwf
    have hnotin : k ∉ rest.map Prod.fst := by
      have h1 := hwf.1.1
      simpa using h1
    simp only [strPaths, List.mem_append] at hp
    rcases hp with hp | hp
    · simp at hp
    · obtain ⟨k', t, rfl, hk'⟩ := strPaths_head rest _ hp
      have hne : ¬ k = k' := fun hh => hnotin (hh ▸ hk')
      obtain ⟨s', hs'⟩ := ih hwf.2 _ hp
      refine ⟨s', ?_⟩
      simp only [getLoop, lookupKey, if_neg hne]
      simpa [getLoop] using hs'
  | hobj k m rest ihm ih =>
    intro hwf p hp
    simp only [wfKeys, Bool.and_eq_true] at hwf
    have hnotin : k ∉ rest.map Prod.fst := by
      have h1 := hwf.1.1
      simpa using h1
    simp only [strPaths, List.mem_append, List.mem_map] at hp
    rcases hp with ⟨q, hq, rfl⟩ | hp
    · obtain ⟨s', hs'⟩ := ihm hwf.1.2 _ hq
      refine ⟨s', ?_⟩
      simp only [getLoop, lookupKey, if_pos rfl]
      simpa [getLoop] using hs'
    · obtain ⟨k', t, rfl, hk'⟩ := strPaths_head rest _ hp
      have hne : ¬ k = k' := fun hh => hnotin (hh ▸ hk')
      obtain ⟨s', hs'⟩ := ih hwf.2 _ hp
      refine ⟨s', ?_⟩
      simp only [getLoop, lookupKey, if_neg hne]
      simpa [getLoop] using hs'

/-- Conversely, any segment path walking to a string leaf is a string-leaf
path of the tree. -/
theorem strPaths_of_walk (e : Entries) :
    ∀ p s, getLoop (.obj e) p = some (.str s) → p ∈ strPaths e := by
  induction e using entriesRec with
  | h0 =>
    intro p s h
    cases p with
    | nil => simp [getLoop] at h
    | cons k t => simp [getLoop, lookupKey] at h
  | hstr k s₀ rest ih =>
    intro p s h
    cases p with
    | nil => simp [getLoop] at h
    | cons k' t =>
      by_cases hk : k = k'
      · subst hk
        simp only [getLoop, lookupKey, if_pos rfl] at h
        cases t with
        | nil =>
          simp [strPaths]
        | cons t₁ ts => simp [getLoop] at h
      · simp only [getLoop, lookupKey, if_neg hk] at h
        have : getLoop (.obj rest) (k' :: t) = some (.str s) := by
          simpa [getLoop] using h
        simp only [strPaths, List.mem_append]
        exact Or.inr (ih _ s this)
  | hoth k n rest ih =>
    intro p s h
    cases p with
    | nil => simp [getLoop] at h
    | cons k' t =>
      by_cases hk : k = k'
      · subst hk
        simp only [getLoop, lookupKey, if_pos rfl] at h
        cases t with
        | nil => simp [getLoop] at h
        | cons t₁ ts => simp [getLoop] at h
      · simp only [getLoop, lookupKey, if_neg hk] at h
        have : getLoop (.obj rest) (k' :: t) = some (.str s) := by
          simpa [getLoop] using h
        simp only [strPaths, List.mem_append]
        exact Or.inr (ih _ s this)
  | hobj k m rest ihm ih =>
    intro p s h
    cases p with
    | nil => simp [getLoop] at h
    | cons k' t =>
      by_cases hk : k = k'
      · subst hk
        simp only [getLoop, lookupKey, if_pos rfl] at h
        have : getLoop (.obj m) t = some (.str s) := by
          simpa [getLoop] using h
        simp only [strPaths, List.mem_append, List.mem_map]
        exact Or.inl ⟨t, ihm _ s this, rfl⟩
      · simp only [getLoop, lookupKey, if_neg hk] at h
        have : getLoop (.obj rest) (k' :: t) = some (.str s) := by
          simpa [getLoop] using h
        simp only [strPaths, List.mem_append]
        exact Or.inr (ih _ s this)

/-- With nonempty dot-free keys, every emitted segment is dot-free. -/
theorem strPaths_dotFree (e : Entries) :
    keysOk e = true → ∀ p ∈ strPaths e, ∀ seg ∈ p, '.' ∉ seg.data := by
  induction e using entriesRec with
  | h0 => intro _ p hp; simp [strPaths] at hp
  | hstr k s rest ih =>
    intro hok p hp seg hseg
    simp only [keysOk, Bool.and_eq_true] at hok
    simp only [strPaths, List.mem_append] at hp
    rcases hp with hp | hp
    · simp at hp
      subst hp
      simp at hseg
      subst hseg
      have h2 := hok.1.1.2
      simp only [List.all_eq_true] at h2
      intro hc
      simpa using h2 _ hc
    · exact ih hok.2 p hp seg hseg
  | hoth k n rest ih =>
    intro hok p hp seg hseg
    simp only [keysOk, Bool.and_eq_true] at hok
    simp only [strPaths, List.mem_append] at hp
    rcases hp with hp | hp
    · simp at hp
    · exact ih hok.2 p hp seg hseg
  | hobj k m rest ihm ih =>
    intro hok p hp seg hseg
    simp only [keysOk, Bool.and_eq_true] at hok
    simp only [strPaths, List.mem_append, List.mem_map] at hp
    rcases hp with ⟨q, hq, rfl⟩ | hp
    · rcases List.mem_cons.mp hseg with rfl | hseg'
      · have h2 := hok.1.1.2
        simp only [List.all_eq_true] at h2
        intro hc
        simpa using h2 _ hc
      · exact ihm hok.1.2 q hq seg hseg'
    · exact ih hok.2 p hp seg hseg

/-- Shared direction: in a well-formed tree with nonempty dot-free keys,
every flattened key walks to a string leaf. -/
theorem mem_extract_walk (T : Entries) (hwf : wfKeys T = true)
    (hok : keysOk T = true) (k : String)
    (hk : k ∈ extract_keys_recursive (.obj T) "") :
    ∃ s, getLoop (.obj T) (splitDot k) = some (.str s) := by
  have hre : extract_keys_recursive (.obj T) "" =
      (strPaths T).map (dotJoin "") := extractList_eq_strPaths T hok ""
  rw [hre] at hk
  obtain ⟨p, hp, rfl⟩ := List.mem_map.mp hk
  have hdj : dotJoin "" p = joinDot p := by simp [dotJoin]
  have hsplit : splitDot (dotJoin "" p) = p := by
    rw [hdj]
    exact splitDot_joinDot p (strPaths_ne_nil T p hp)
      (fun seg hs => strPaths_dotFree T hok p hp seg hs)
  obtain ⟨s, hs⟩ := walk_strPaths T hwf p hp
  exact ⟨s, by rw [hsplit]; exact hs⟩

/-- C2 counterexample: over arbitrary trees the claim fails — a tree key
containing a dot is flattened to a dotted key that `get` re-splits, so
the lookup misses: `{"a.b": "x"}` flattens to `["a.b"]` but `get` of
`"a.b"` walks segments `a`, `b` and returns the not-found signal, not
`"x"`; likewise an empty top-level key makes the prefix collapse:
`{"": {"b": "x"}}` flattens to `["b"]` but `get` of `"b"` fails. -/
theorem flatten_get_mismatch_dotted_key :
    ("a.b" ∈ extract_keys_recursive (.obj [("a.b", JVal.str "x")]) "" ∧
      get_value_from_nested_dict [("a.b", JVal.str "x")] "a.b" = none) ∧
    ("b" ∈ extract_keys_recursive (.obj [("", JVal.obj [("b", JVal.str "x")])]) "" ∧
      get_value_from_nested_dict [("", JVal.obj [("b", JVal.str "x")])] "b" = none) := by
  refine ⟨⟨?_, rfl⟩, ⟨?_, rfl⟩⟩
  · simp [extract_keys_recursive, extractList]
  · simp [extract_keys_recursive, extractList]

/-- C2 amended: for well-formed trees all of whose keys are nonempty and
contain no `'.'`, every key emitted by the flattener walks (in the spec's
sense) to a string leaf, and `get_value_from_nested_dict` returns exactly
that leaf value. -/
theorem flatten_sound_for_clean_keys (T : Entries) (k : String)
    (hwf : wfKeys T = true) (hok : keysOk T = true)
    (hk : k ∈ extract_keys_recursive (.obj T) "") :
    ∃ s, specWalk (.obj T) (splitDot k) = some (.str s) ∧
      get_value_from_nested_dict T k = some s := by
  obtain ⟨s, hs⟩ := mem_extract_walk T hwf hok k hk
  refine ⟨s, ?_, ?_⟩
  · rw [← getLoop_eq_specWalk]; exact hs
  · rw [get_eq_getValSegs]
    unfold getValSegs
    rw [hs]

theorem flatten_sound_for_clean_keys_witness :
    ∃ s, specWalk (.obj [("a", .obj [("b", .str "x")])]) (splitDot "a.b")
        = some (.str s) ∧
      get_value_from_nested_dict [("a", .obj [("b", .str "x")])] "a.b"
        = some s :=
  flatten_sound_for_clean_keys [("a", .obj [("b", .str "x")])] "a.b"
    (by simp [wfKeys]) (by simp [keysOk])
    (by simp [extract_keys_recursive, extractList])

/-- C5 counterexample: the if-and-only-if fails on arbitrary trees — with
the single entry `{"p.q": "v"}` the flattener emits `"p.q"`, yet walking
that key's segments in the tree fails, so the emitted path does not reach
a string leaf; with `{"": {"q": "v"}}` the flattener emits `"q"`, whose
segment walk also fails. -/
theorem flatten_iff_fails_dotted_key :
    ("p.q" ∈ extract_keys_recursive (.obj [("p.q", JVal.str "v")]) "" ∧
      specWalk (.obj [("p.q", JVal.str "v")]) (splitDot "p.q") = none) ∧
    ("q" ∈ extract_keys_recursive (.obj [("", JVal.obj [("q", JVal.str "v")])]) "" ∧
      specWalk (.obj [("", JVal.obj [("q", JVal.str "v")])]) (splitDot "q") = none) := by
  refine ⟨⟨?_, rfl⟩, ⟨?_, rfl⟩⟩
  · simp [extract_keys_recursive, extractList]
  · simp [extract_keys_recursive, extractList]

/-- C5 amended: for well-formed trees all of whose keys are nonempty and
contain no `'.'`, a dotted key is emitted by the flattener if and only if
walking its segments reaches a string leaf; in particular entries with
non-string non-mapping values are dropped (their paths walk to an
`other` value, not a string leaf, hence are never emitted). -/
theorem flatten_exactly_string_leaves (T : Entries) (k : String)
    (hwf : wfKeys T = true) (hok : keysOk T = true) :
    k ∈ extract_keys_recursive (.obj T) "" ↔
      ∃ s, specWalk (.obj T) (splitDot k) = some (.str s) := by
  constructor
  · intro hk
    obtain ⟨s, hs⟩ := mem_extract_walk T hwf hok k hk
    exact ⟨s, by rw [← getLoop_eq_specWalk]; exact hs⟩
  · rintro ⟨s, hs⟩
    rw [← getLoop_eq_specWalk] at hs
    have hp := strPaths_of_walk T (splitDot k) s hs
    have hre : extract_keys_recursive (.obj T) "" =
        (strPaths T).map (dotJoin "") := extractList_eq_strPaths T hok ""
    rw [hre]
    refine List.mem_map.mpr ⟨splitDot k, hp, ?_⟩
    simp [dotJoin, joinDot_splitDot]

theorem flatten_exactly_string_leaves_witness :
    ("a.b" ∈ extract_keys_recursive
        (.obj [("a", .obj [("b", .str "x"), ("c", .other 0)])]) "" ↔
      ∃ s, specWalk (.obj [("a", .obj [("b", .str "x"), ("c", .other 0)])])
          (splitDot "a.b") = some (.str s)) ∧
    ("a.c" ∈ extract_keys_recursive
        (.obj [("a", .obj [("b", .str "x"), ("c", .other 0)])]) "" ↔
      ∃ s, specWalk (.obj [("a", .obj [("b", .str "x"), ("c", .other 0)])])
          (splitDot "a.c") = some (.str s)) :=
  ⟨flatten_exactly_string_leaves [("a", .obj [("b", .str "x"), ("c", .other 0)])]
      "a.b" (by simp [wfKeys]) (by simp [keysOk]),
    flatten_exactly_string_leaves [("a", .obj [("b", .str "x"), ("c", .other 0)])]
      "a.c" (by simp [wfKeys]) (by simp [keysOk])⟩

/-- C6: the Differ degrades load failures to empty key sets — every
failure outcome of `get_keys_for_language` yields the empty set; a diff
against a failed side is computed with that side empty (diffing the
reference `{a: "x"}` against a missing target reports `["a"]`); and the
driver produces one labelled result for every namespace, whatever each
load returns. -/
theorem differ_load_failure_empty (t : Entries)
    (loadEn loadPl : String → LoadResult) (namespaces : List String) :
    get_keys_for_language .fileNotFound = [] ∧
    get_keys_for_language .emptyFile = [] ∧
    get_keys_for_language .malformedJSON = [] ∧
    get_keys_for_language .otherError = [] ∧
    missingKeys (.ok t) .fileNotFound =
      sortStrs (dedupKeys (extract_keys_recursive (.obj t) "")) ∧
    missingKeys (.ok [("a", .str "x")]) .fileNotFound = ["a"] ∧
    (differMain loadEn loadPl namespaces).map Prod.fst =
      namespaces.map (fun ns => "missing_pl_" ++ ns ++ "_keys") := by
  refine ⟨rfl, rfl, rfl, rfl, ?_, ?_, ?_⟩
  · simp [missingKeys, get_keys_for_language, List.contains]
  · simp [missingKeys, get_keys_for_language, extract_keys_recursive,
      extractList, dedupKeys, sortStrs, insertStr, List.contains]
  · simp [differMain, List.map_map, Function.comp]

theorem setKeyS_append_of_absent (acc : List (String × String))
    (k v : String) (h : lookupKeyS acc k = none) :
    setKeyS acc k v = acc ++ [(k, v)] := by
  induction acc with
  | nil => rfl
  | cons e rest ih =>
    obtain ⟨k₀, w⟩ := e
    by_cases hk : k₀ = k
    · simp [lookupKeyS, hk] at h
    · simp only [lookupKeyS, if_neg hk] at h
      simp [setKeyS, hk, ih h]

theorem lookupKeyS_append_none (acc : List (String × String))
    (k k' v : String) (h : lookupKeyS acc k' = none) (hne : k ≠ k') :
    lookupKeyS (acc ++ [(k, v)]) k' = none := by
  induction acc with
  | nil => simp [lookupKeyS, hne]
  | cons e rest ih =>
    obtain ⟨k₀, w⟩ := e
    by_cases hk : k₀ = k'
    · simp [lookupKeyS, hk] at h
    · simp only [lookupKeyS, if_neg hk] at h
      simp [lookupKeyS, hk, ih h]

/-- The Extractor's result-filling loop over distinct fresh keys appends
one entry per key, in order. -/
theorem foldl_setKeyS (f : String → String) :
    ∀ (ks : List String) (acc : List (String × String)),
      ks.Nodup → (∀ k ∈ ks, lookupKeyS acc k = none) →
      ks.foldl (fun res k => setKeyS res k (f k)) acc
        = acc ++ ks.map (fun k => (k, f k)) := by
  intro ks
  induction ks with
  | nil => intro acc _ _; simp
  | cons k rest ih =>
    intro acc hnd habs
    have hstep : setKeyS acc k (f k) = acc ++ [(k, f k)] :=
      setKeyS_append_of_absent acc k (f k) (habs k (by simp))
    have hnd' : rest.Nodup := (List.nodup_cons.mp hnd).2
    have hknotin : k ∉ rest := (List.nodup_cons.mp hnd).1
    have habs' : ∀ k' ∈ rest, lookupKeyS (acc ++ [(k, f k)]) k' = none := by
      intro k' hk'
      exact lookupKeyS_append_none acc k k' (f k) (habs k' (by simp [hk']))
        (fun hx => hknotin (hx ▸ hk'))
    simp only [List.foldl_cons, hstep, ih (acc ++ [(k, f k)]) hnd' habs']
    simp

/-- C7: Extractor totality and short-circuit asymmetry — on a successful
load the result mapping is exactly one entry per requested key, in order,
holding the string value when `get` succeeds and the diagnostic string
when it fails (`extractValue`); on any whole-file load failure the result
is the empty mapping, with no partial per-key results. -/
theorem extractor_total_and_shortcircuit (t : Entries)
    (target_keys : List String) (hnd : target_keys.Nodup) :
    extractorMain (.ok t) target_keys
        = target_keys.map (fun k => (k, extractValue t k)) ∧
    (extractorMain (.ok t) target_keys).map Prod.fst = target_keys ∧
    extractorMain .fileNotFound target_keys = [] ∧
    extractorMain .emptyFile target_keys = [] ∧
    extractorMain .malformedJSON target_keys = [] ∧
    extractorMain .otherError target_keys = [] := by
  have h1 : extractorMain (.ok t) target_keys
      = target_keys.map (fun k => (k, extractValue t k)) := by
    show target_keys.foldl (fun res k => setKeyS res k (extractValue t k)) []
      = target_keys.map (fun k => (k, extractValue t k))
    rw [foldl_setKeyS (extractValue t) target_keys [] hnd
      (by intro k _; rfl)]
    simp
  refine ⟨h1, ?_, rfl, rfl, rfl, rfl⟩
  rw [h1, List.map_map]
  have hcomp : (Prod.fst ∘ fun k => (k, extractValue t k)) = id := rfl
  rw [hcomp, List.map_id]

theorem extractor_total_and_shortcircuit_witness :
    extractorMain (.ok [("x", .obj [("y", .str "v")])]) ["x.y", "z"]
      = [("x.y", extractValue [("x", .obj [("y", .str "v")])] "x.y"),
         ("z", extractValue [("x", .obj [("y", .str "v")])] "z")] :=
  (extractor_total_and_shortcircuit [("x", .obj [("y", .str "v")])]
    ["x.y", "z"] (by decide)).1
